import Mathlib

/-!
Verification of the nonce/salt anti-replay subsystem and the token-diff
settlement engine of the intents settlement core.

Shallow embedding: bytes are `Fin 256`, 32-byte nonces are byte lists,
sparse maps of the storage layer are Lean functions into `Option`, and
fallible operations return `Except DefuseError`.
-/

set_option maxRecDepth 4096

namespace Intents

abbrev Byte := Fin 256

abbrev Bytes := List Byte

/-- A 256-bit nonce: 32 bytes. -/
abbrev Nonce := Bytes

/-- Error taxonomy of the settlement core (`DefuseError`). -/
inductive DefuseError where
  | NonceUsed
  | SaltGenerationFailed
  | InvalidSalt
  | DeadlineExpired
  | InvalidNonceDeadline
  | InsufficientBalance
  deriving DecidableEq, Repr

/-! ## Little-endian byte serialization helpers (borsh integer encoding) -/

/-- `natToLE w n` is the `w`-byte little-endian encoding of `n % 256 ^ w`. -/
def natToLE : Nat → Nat → Bytes
  | 0, _ => []
  | w + 1, n => ⟨n % 256, Nat.mod_lt _ (by norm_num)⟩ :: natToLE w (n / 256)

/-- Value of a little-endian byte string. -/
def leToNat : Bytes → Nat
  | [] => 0
  | b :: bs => b.val + 256 * leToNat bs

/-! ## Salt (4 opaque bytes) -/

/-- `Salt([u8; 4])` from `core/src/nonce/salted.rs`. -/
structure Salt where
  b0 : Byte
  b1 : Byte
  b2 : Byte
  b3 : Byte
  deriving DecidableEq, Repr

def Salt.encode (s : Salt) : Bytes := [s.b0, s.b1, s.b2, s.b3]

def Salt.ofBytes (bs : Bytes) : Salt :=
  ⟨bs.getD 0 0, bs.getD 1 0, bs.getD 2 0, bs.getD 3 0⟩

/-! ## Deadlines

`Deadline` wraps a UTC timestamp; over the wire it is the i64 nanoseconds
since the epoch, serialized as 8 little-endian bytes
(`TimestampNanoSeconds` borsh adapter). We embed the 64-bit two's-complement
bit pattern and interpret it signed for comparisons. -/

abbrev Deadline := Fin (2 ^ 64)

/-- Signed (i64) interpretation of the stored bit pattern. -/
def Deadline.toInt (d : Deadline) : Int :=
  if d.val < 2 ^ 63 then (d.val : Int) else (d.val : Int) - 2 ^ 64

/-- `Deadline::has_expired`: the deadline lies strictly before `now`. -/
def Deadline.has_expired (d : Deadline) (now : Deadline) : Bool :=
  d.toInt < now.toInt

/-! ## Versioned nonce codec (`core/src/nonce/versioned.rs`) -/

/-- `ExpirableNonce<T>` from `core/src/nonce/expirable.rs`. -/
structure ExpirableNonce (T : Type) where
  deadline : Deadline
  nonce : T
  deriving DecidableEq, Repr

/-- `SaltedNonce<T>` from `core/src/nonce/salted.rs`. -/
structure SaltedNonce (T : Type) where
  salt : Salt
  nonce : T
  deriving DecidableEq, Repr

/-- `VersionedNonce` tagged union; only variant `V1` exists
(tag byte 0 in borsh encoding). -/
inductive VersionedNonce where
  | V1 : SaltedNonce (ExpirableNonce Bytes) → VersionedNonce
  deriving DecidableEq, Repr

namespace VersionedNonce

/-- `VERSIONED_MAGIC_PREFIX = hex!("5628f6c6")`. -/
def VERSIONED_MAGIC_PREFIX : Bytes := [0x56, 0x28, 0xf6, 0xc6]

/-- Length of the 15 random payload bytes of a `V1` nonce. -/
def randomLen : VersionedNonce → Nat
  | .V1 sn => sn.nonce.nonce.length

/-- `From<VersionedNonce> for Nonce`: magic(4) ++ tag(1) ++ salt(4) ++
deadline as i64 LE (8) ++ random bytes (15). -/
def encode : VersionedNonce → Bytes
  | .V1 sn =>
      VERSIONED_MAGIC_PREFIX ++
        (0 : Byte) :: (sn.salt.encode ++ (natToLE 8 sn.nonce.deadline.val ++ sn.nonce.nonce))

/-- `VersionedNonce::maybe_from`: strip the magic prefix, then borsh-decode
the tagged variant; any failure yields `none` (treated as a legacy nonce). -/
def maybe_from (n : Bytes) : Option VersionedNonce :=
  if n.length = 32 ∧ n.take 4 = VERSIONED_MAGIC_PREFIX then
    match n.drop 4 with
    | [] => none
    | t :: rest =>
        if t = (0 : Byte) then
          some (.V1
            { salt := Salt.ofBytes (rest.take 4)
              nonce :=
                { deadline := ⟨leToNat ((rest.drop 4).take 8) % 2 ^ 64,
                    Nat.mod_lt _ (by norm_num)⟩
                  nonce := (rest.drop 4).drop 8 } })
        else none
  else none

end VersionedNonce

/-! ## Nonce registry bitmap -/

/-- 248-bit nonce prefix: the 31 high-order bytes. -/
abbrev NoncePrefix := Bytes

/-- `let [prefix @ .., _] = nonce`: all bytes but the last. -/
def noncePrefix (n : Nonce) : NoncePrefix := n.dropLast

/-- The lowest-order byte of the nonce: the bit index inside the word. -/
def nonceIndex (n : Nonce) : Nat := (n.getLastD 0).val

/-- Modelled from the spec: `BitMap256` of the `defuse_bitmap` crate is not
under the available sources. Per §3/§9, it is a sparse map from 248-bit
prefix to a 256-bit word; bit `index` of the word records whether the nonce
`(prefix, index)` has been consumed. The word is embedded as a `Nat`
of bits. -/
structure BitMap256 where
  words : NoncePrefix → Option Nat

namespace BitMap256

def get_bit (m : BitMap256) (n : Nonce) : Bool :=
  match m.words (noncePrefix n) with
  | none => false
  | some w => w.testBit (nonceIndex n)

/-- Test-and-set: returns the previous value of the bit and the updated map. -/
def set_bit (m : BitMap256) (n : Nonce) : Bool × BitMap256 :=
  let p := noncePrefix n
  let w := (m.words p).getD 0
  (w.testBit (nonceIndex n),
    ⟨fun q => if q = p then some (w ||| 2 ^ nonceIndex n) else m.words q⟩)

/-- Remove the whole word for `prefix`; returns whether anything was removed. -/
def cleanup_by_prefix (m : BitMap256) (p : NoncePrefix) : Bool × BitMap256 :=
  match m.words p with
  | none => (false, m)
  | some _ => (true, ⟨fun q => if q = p then none else m.words q⟩)

end BitMap256

/-- `Nonces` from `core/src/nonce/mod.rs`: a newtype over `BitMap256`. -/
structure Nonces where
  bitmap : BitMap256

namespace Nonces

def is_used (m : Nonces) (n : Nonce) : Bool := m.bitmap.get_bit n

/-- `Nonces::commit`: `if self.0.set_bit(n) { return Err(NonceUsed) } Ok(())`.
The pair carries the result together with the mutated registry. -/
def commit (m : Nonces) (n : Nonce) : Except DefuseError Unit × Nonces :=
  let r := m.bitmap.set_bit n
  if r.1 then (.error .NonceUsed, ⟨r.2⟩) else (.ok (), ⟨r.2⟩)

def cleanup_by_prefix (m : Nonces) (p : NoncePrefix) : Bool × Nonces :=
  let r := m.bitmap.cleanup_by_prefix p
  (r.1, ⟨r.2⟩)

end Nonces

/-- `MaybeLegacyNonces` from
`defuse/src/contract/accounts/account/nonces.rs`. -/
structure MaybeLegacyNonces where
  nonces : Nonces
  legacy : Option Nonces

namespace MaybeLegacyNonces

/-- `MaybeLegacyNonces::new`: new accounts have no legacy part. -/
def new (nonces : Nonces) : MaybeLegacyNonces := ⟨nonces, none⟩

def with_legacy (legacy : Nonces) (nonces : Nonces) : MaybeLegacyNonces :=
  ⟨nonces, some legacy⟩

/-- `MaybeLegacyNonces::commit`: a nonce used in the legacy registry fails
with `NonceUsed` before touching anything; otherwise delegate to the new
registry. -/
def commit (s : MaybeLegacyNonces) (n : Nonce) :
    Except DefuseError Unit × MaybeLegacyNonces :=
  if s.legacy.elim false (fun l => l.is_used n) then
    (.error .NonceUsed, s)
  else
    let r := s.nonces.commit n
    (r.1, { s with nonces := r.2 })

def is_used (s : MaybeLegacyNonces) (n : Nonce) : Bool :=
  s.nonces.is_used n || s.legacy.elim false (fun l => l.is_used n)

/-- `cleanup_by_prefix` delegates to the new registry only. -/
def cleanup_by_prefix (s : MaybeLegacyNonces) (p : NoncePrefix) :
    Bool × MaybeLegacyNonces :=
  let r := s.nonces.cleanup_by_prefix p
  (r.1, { s with nonces := r.2 })

end MaybeLegacyNonces

/-- An operation on a legacy-aware nonce registry. -/
inductive NonceOp where
  | commit (n : Nonce)
  | cleanup (p : NoncePrefix)

def MaybeLegacyNonces.applyOp (s : MaybeLegacyNonces) : NonceOp → MaybeLegacyNonces
  | .commit n => (s.commit n).2
  | .cleanup p => (s.cleanup_by_prefix p).2

def MaybeLegacyNonces.applyOps (s : MaybeLegacyNonces) (ops : List NonceOp) :
    MaybeLegacyNonces :=
  ops.foldl MaybeLegacyNonces.applyOp s

/-! ## Salt registry (`core/src/nonce/salted.rs`) -/

/-- `SaltRegistry { previous: IterableMap<Salt, bool>, current: Salt }`.
The storage-backed map is embedded as a function into `Option Bool`.
`Salt::derive(num)` reads the execution context's random seed, so the
derivation is passed in explicitly as `derive : Nat → Salt`. -/
structure SaltRegistry where
  previous : Salt → Option Bool
  current : Salt

namespace SaltRegistry

/-- `is_used`: current or already tracked, regardless of validity. -/
def is_used (r : SaltRegistry) (s : Salt) : Bool :=
  s = r.current || (r.previous s).isSome

/-- `is_valid`: current, or present in `previous` with flag `true`. -/
def is_valid (r : SaltRegistry) (s : Salt) : Bool :=
  s = r.current || (r.previous s).getD false

/-- The bounded search of `derive_next_salt`:
`(0..=u8::MAX).map(Salt::derive).find(|s| !self.is_used(*s))`,
written with explicit fuel (256 attempts starting at index `i`). -/
def deriveNextAux (r : SaltRegistry) (derive : Nat → Salt) :
    Nat → Nat → Except DefuseError Salt
  | 0, _ => .error .SaltGenerationFailed
  | fuel + 1, i =>
      if r.is_used (derive i) then deriveNextAux r derive fuel (i + 1)
      else .ok (derive i)

def derive_next_salt (r : SaltRegistry) (derive : Nat → Salt) :
    Except DefuseError Salt :=
  deriveNextAux r derive 256 0

/-- `set_new` (rotation): derive a fresh salt, make it current, and demote
the old current into `previous` with validity `true`; returns the demoted
salt together with the updated registry. -/
def set_new (r : SaltRegistry) (derive : Nat → Salt) :
    Except DefuseError (Salt × SaltRegistry) :=
  match r.derive_next_salt derive with
  | .error e => .error e
  | .ok salt =>
      .ok (r.current,
        { previous := fun q => if q = r.current then some true else r.previous q
          current := salt })

/-- `invalidate`: if the salt is current, rotate first; then flip the
`previous` flag to `false`, failing with `InvalidSalt` if the salt is not
tracked there. -/
def invalidate (r : SaltRegistry) (derive : Nat → Salt) (salt : Salt) :
    Except DefuseError SaltRegistry :=
  if salt = r.current then
    match r.set_new derive with
    | .error e => .error e
    | .ok (_, r1) =>
        match r1.previous salt with
        | some _ =>
            .ok { r1 with
                  previous := fun q => if q = salt then some false else r1.previous q }
        | none => .error .InvalidSalt
  else
    match r.previous salt with
    | some _ =>
        .ok { r with
              previous := fun q => if q = salt then some false else r.previous q }
    | none => .error .InvalidSalt

end SaltRegistry

/-- An externally-triggered salt registry operation, carrying the derivation
function (i.e. the random seed) in effect for that call. -/
inductive SaltOp where
  | setNew (derive : Nat → Salt)
  | invalidate (derive : Nat → Salt) (salt : Salt)

def SaltRegistry.applyOp (r : SaltRegistry) : SaltOp → SaltRegistry
  | .setNew d =>
      match r.set_new d with
      | .ok p => p.2
      | .error _ => r
  | .invalidate d s =>
      match r.invalidate d s with
      | .ok r' => r'
      | .error _ => r

def SaltRegistry.applyOps (r : SaltRegistry) (ops : List SaltOp) : SaltRegistry :=
  ops.foldl SaltRegistry.applyOp r

/-! ## Nonce admission policy and contract-level garbage collection -/

abbrev AccountId := Nat

/-- Modelled from the spec: the nonce-admission policy of §4.4 lives in the
execution engine (`defuse_core::engine`), which is not among the available
sources. Given the payload's declared deadline `D` and nonce `n`: a nonce
that decodes as `V1` must satisfy `nd >= D` (`InvalidNonceDeadline`
otherwise), must not have expired (`DeadlineExpired`), and must carry a
valid salt (`InvalidSalt`); a legacy nonce undergoes only the replay check.
Finally the nonce is committed into the signer's registry. -/
def commit_nonce (salts : SaltRegistry) (reg : MaybeLegacyNonces)
    (now D : Deadline) (n : Nonce) :
    Except DefuseError Unit × MaybeLegacyNonces :=
  match VersionedNonce.maybe_from n with
  | some (.V1 sn) =>
      if sn.nonce.deadline.toInt < D.toInt then (.error .InvalidNonceDeadline, reg)
      else if sn.nonce.deadline.has_expired now then (.error .DeadlineExpired, reg)
      else if salts.is_valid sn.salt = false then (.error .InvalidSalt, reg)
      else reg.commit n
  | none => reg.commit n

/-- The slice of the contract state the garbage collector touches:
per-account nonce registries, the salt registry and the execution-time
clock (`defuse/src/contract/garbage_collector.rs`). -/
structure Contract where
  accounts : AccountId → Option MaybeLegacyNonces
  salts : SaltRegistry
  now : Deadline

namespace Contract

def is_nonce_used (c : Contract) (a : AccountId) (n : Nonce) : Bool :=
  (c.accounts a).elim false (fun reg => reg.is_used n)

/-- `Contract::is_nonce_cleanable`: only a versioned nonce whose embedded
deadline has expired or whose salt is no longer valid may be reclaimed. -/
def is_nonce_cleanable (c : Contract) (n : Nonce) : Bool :=
  match VersionedNonce.maybe_from n with
  | none => false
  | some (.V1 sn) =>
      sn.nonce.deadline.has_expired c.now || !c.salts.is_valid sn.salt

/-- Modelled from the spec: `State::cleanup_nonce_by_prefix` is declared in
the engine sources that are not available; per §4.2/§6 it delegates to the
account's registry `cleanup_by_prefix`, and its errors (e.g. unknown
account) are omitted by the caller. -/
def cleanup_nonce_by_prefix (c : Contract) (a : AccountId) (p : NoncePrefix) :
    Contract :=
  match c.accounts a with
  | none => c
  | some reg =>
      { c with
        accounts := fun b =>
          if b = a then some (reg.cleanup_by_prefix p).2 else c.accounts b }

/-- One iteration of the `cleanup_nonces` loop body. -/
def cleanupOne (c : Contract) (a : AccountId) (n : Nonce) : Contract :=
  if c.is_nonce_cleanable n then c.cleanup_nonce_by_prefix a (noncePrefix n)
  else c

/-- `GarbageCollector::cleanup_nonces`: best-effort, silently skips every
non-cleanable nonce. -/
def cleanup_nonces (c : Contract) (entries : List (AccountId × List Nonce)) :
    Contract :=
  entries.foldl (fun c e => e.2.foldl (fun c n => c.cleanupOne e.1 n) c) c

end Contract

/-! ## Token-diff settlement engine

Modelled from the spec (§4.5): the settlement engine
(`defuse_core::engine::deltas` and the `TokenDiff` intent executor) is not
among the available sources; only its integration tests are. The model
follows the spec's words: stage per-account balance changes while
accumulating fee-adjusted deltas per token, then commit iff the batch-wide
unmatched-deltas map is empty, otherwise reject and persist nothing. -/

abbrev TokenId := Nat

/-- Signed per-token deltas requested by one intent. -/
abbrev TokenDeltas := List (TokenId × Int)

/-- Persisted per-account per-token balances (`u128`, non-negative). -/
abbrev Balances := AccountId → TokenId → Nat

/-- Fee rate in parts-per-million (`Pips`); `ZERO = 0`. -/
abbrev Pips := Nat

def Pips.ZERO : Pips := 0

def Pips.MAX : Pips := 1000000

/-- Modelled from the spec: the fee-adjusted amount reconciled against the
batch-wide invariant (`closure_delta`). The spec leaves the exact rounding
open and requires choosing a direction that favors the protocol; here
positive (incoming) deltas are grossed up by `1 / (1 - fee)` rounding up,
negative deltas pass through. At `Pips::ZERO` this is the identity. -/
def feeAdjusted (raw : Int) (fee : Pips) : Int :=
  if 0 ≤ raw then
    ((raw.toNat * Pips.MAX + (Pips.MAX - fee - 1)) / (Pips.MAX - fee) : Nat)
  else raw

/-- The ephemeral unmatched-deltas running total: zero entries are pruned. -/
def lookupTok : List (TokenId × Int) → TokenId → Int
  | [], _ => 0
  | (t', v) :: rest, t => if t' = t then v else lookupTok rest t

def setTok : List (TokenId × Int) → TokenId → Int → List (TokenId × Int)
  | [], t, v => if v = 0 then [] else [(t, v)]
  | (t', v') :: rest, t, v =>
      if t' = t then (if v = 0 then rest else (t, v) :: rest)
      else (t', v') :: setTok rest t v

def addTok (u : List (TokenId × Int)) (t : TokenId) (d : Int) :
    List (TokenId × Int) :=
  setTok u t (lookupTok u t + d)

/-- Stage one intent's deltas against the signer's balances; `none` when a
negative delta exceeds the signer's balance (`InsufficientBalance`). -/
def applyIntentDeltas (bal : Balances) (a : AccountId) :
    TokenDeltas → Option Balances
  | [] => some bal
  | (t, d) :: rest =>
      let v : Int := (bal a t : Int) + d
      if v < 0 then none
      else
        applyIntentDeltas
          (fun a' t' => if a' = a ∧ t' = t then v.toNat else bal a' t') a rest

/-- The `Collecting` phase's running state. -/
structure CollectState where
  bal : Balances
  unmatched : List (TokenId × Int)
  failed : List (AccountId × TokenDeltas)

/-- Stage one signed `TokenDiff` intent: on insufficient balance the intent
alone fails; otherwise its balance changes are staged and its fee-adjusted
deltas accumulate into the unmatched-deltas total. -/
def collectIntent (fee : Pips) (st : CollectState)
    (intent : AccountId × TokenDeltas) : CollectState :=
  match applyIntentDeltas st.bal intent.1 intent.2 with
  | none => { st with failed := st.failed ++ [intent] }
  | some bal' =>
      { bal := bal'
        unmatched :=
          intent.2.foldl (fun u td => addTok u td.1 (feeAdjusted td.2 fee))
            st.unmatched
        failed := st.failed }

def collect (fee : Pips) (bal : Balances)
    (batch : List (AccountId × TokenDeltas)) : CollectState :=
  batch.foldl (collectIntent fee) ⟨bal, [], []⟩

/-- The batch-level settlement report. -/
structure SettlementReport where
  committed : Bool
  unmatched : List (TokenId × Int)

/-- `Collecting -> Verifying -> {Committed | Rejected}`: commit the staged
balances iff the unmatched-deltas map is empty; on rejection the original
balances persist and the report carries the residual. -/
def apply_token_diff_batch (fee : Pips) (bal : Balances)
    (batch : List (AccountId × TokenDeltas)) : SettlementReport × Balances :=
  let st := collect fee bal batch
  if st.unmatched = [] then (⟨true, []⟩, st.bal)
  else (⟨false, st.unmatched⟩, bal)

/-- Net delta one intent requests for token `t`. -/
def deltaSum (ds : TokenDeltas) (t : TokenId) : Int :=
  (ds.map (fun td => if td.1 = t then td.2 else 0)).sum

/-- Fee-adjusted net delta one intent contributes for token `t`. -/
def deltaAdjSum (fee : Pips) (ds : TokenDeltas) (t : TokenId) : Int :=
  (ds.map (fun td => if td.1 = t then feeAdjusted td.2 fee else 0)).sum

/-- Raw (un-adjusted) sum of a batch's deltas for one token. -/
def rawSum (batch : List (AccountId × TokenDeltas)) (t : TokenId) : Int :=
  (batch.map (fun i => deltaSum i.2 t)).sum

/-- Fee-adjusted sum of a batch's deltas for one token. -/
def adjSum (fee : Pips) (batch : List (AccountId × TokenDeltas)) (t : TokenId) :
    Int :=
  (batch.map (fun i => deltaAdjSum fee i.2 t)).sum

/-- Net delta a batch requests for account `a` and token `t`. -/
def acctSum (batch : List (AccountId × TokenDeltas)) (a : AccountId)
    (t : TokenId) : Int :=
  (batch.map (fun i => if i.1 = a then deltaSum i.2 t else 0)).sum

/-- Unique keys of an unmatched-deltas list. -/
def UKeys (u : List (TokenId × Int)) : Prop := (u.map Prod.fst).Nodup

/-- All entries of an unmatched-deltas list are non-zero. -/
def NZ (u : List (TokenId × Int)) : Prop := ∀ e ∈ u, e.2 ≠ 0

theorem natToLE_length (w n : Nat) : (natToLE w n).length = w := by
  induction w generalizing n with
  | zero => rfl
  | succ w ih => simp [natToLE, ih]

theorem leToNat_natToLE (w n : Nat) : leToNat (natToLE w n) = n % 256 ^ w := by
  induction w generalizing n with
  | zero => simp [natToLE, leToNat, Nat.mod_one]
  | succ w ih =>
      rw [natToLE, leToNat, ih, pow_succ, mul_comm (256 ^ w) 256, Nat.mod_mul]

theorem leToNat_lt (bs : Bytes) : leToNat bs < 256 ^ bs.length := by
  induction bs with
  | nil => simp [leToNat]
  | cons b bs ih =>
      have hb : b.val < 256 := b.isLt
      rw [leToNat, List.length_cons, pow_succ, mul_comm (256 ^ bs.length) 256]
      calc b.val + 256 * leToNat bs < 256 + 256 * leToNat bs := by omega
        _ = 256 * (leToNat bs + 1) := by ring
        _ ≤ 256 * 256 ^ bs.length := by
              exact Nat.mul_le_mul_left 256 (Nat.succ_le_of_lt ih)

theorem natToLE_leToNat (bs : Bytes) : natToLE bs.length (leToNat bs) = bs := by
  induction bs with
  | nil => rfl
  | cons b bs ih =>
      have hb : b.val < 256 := b.isLt
      rw [List.length_cons, natToLE, leToNat]
      congr 1
      · apply Fin.ext
        show (b.val + 256 * leToNat bs) % 256 = b.val
        omega
      · have hdiv : (b.val + 256 * leToNat bs) / 256 = leToNat bs := by omega
        rw [hdiv, ih]

theorem Salt.ofBytes_encode (s : Salt) : Salt.ofBytes s.encode = s := rfl

theorem Salt.length_encode (s : Salt) : s.encode.length = 4 := rfl

/-! ### Bit-level helper lemmas -/

theorem Nat.lor_two_pow_of_testBit {w i : Nat} (h : w.testBit i = true) :
    w ||| 2 ^ i = w := by
  apply Nat.eq_of_testBit_eq
  intro j
  rw [Nat.testBit_or, Nat.testBit_two_pow]
  by_cases hij : i = j
  · subst hij; simp [h]
  · simp [hij]

theorem BitMap256.set_bit_fst (m : BitMap256) (n : Nonce) :
    (m.set_bit n).1 = m.get_bit n := by
  unfold BitMap256.set_bit BitMap256.get_bit
  cases h : m.words (noncePrefix n) <;> simp [h, Nat.zero_testBit]

theorem BitMap256.get_bit_set_bit_self (m : BitMap256) (n : Nonce) :
    (m.set_bit n).2.get_bit n = true := by
  unfold BitMap256.set_bit BitMap256.get_bit
  simp [Nat.testBit_or, Nat.testBit_two_pow]

theorem BitMap256.set_bit_already_set (m : BitMap256) (n : Nonce)
    (h : m.get_bit n = true) (q : NoncePrefix) :
    (m.set_bit n).2.words q = m.words q := by
  unfold BitMap256.get_bit at h
  unfold BitMap256.set_bit
  by_cases hq : q = noncePrefix n
  · subst hq
    cases hw : m.words (noncePrefix n) with
    | none => rw [hw] at h; simp at h
    | some w =>
        rw [hw] at h
        simp [hw, Nat.lor_two_pow_of_testBit h]
  · simp [hq]

/-! ### Derivation-search lemmas -/

theorem SaltRegistry.deriveNextAux_error (r : SaltRegistry) (derive : Nat → Salt) :
    ∀ fuel i, (∀ k, i ≤ k → k < i + fuel → r.is_used (derive k) = true) →
      deriveNextAux r derive fuel i = .error .SaltGenerationFailed := by
  intro fuel
  induction fuel with
  | zero => intro i _; rfl
  | succ fuel ih =>
      intro i h
      have hi : r.is_used (derive i) = true := h i le_rfl (by omega)
      rw [deriveNextAux, hi, if_pos rfl]
      exact ih (i + 1) fun k hk1 hk2 => h k (by omega) (by omega)

theorem SaltRegistry.deriveNextAux_ok (r : SaltRegistry) (derive : Nat → Salt) :
    ∀ fuel i s, deriveNextAux r derive fuel i = .ok s →
      ∃ j, i ≤ j ∧ j < i + fuel ∧ s = derive j ∧ r.is_used (derive j) = false ∧
        ∀ k, i ≤ k → k < j → r.is_used (derive k) = true := by
  intro fuel
  induction fuel with
  | zero => intro i s h; exact absurd h (by simp [deriveNextAux])
  | succ fuel ih =>
      intro i s h
      rw [deriveNextAux] at h
      by_cases hu : r.is_used (derive i) = true
      · rw [hu, if_pos rfl] at h
        obtain ⟨j, hj1, hj2, hj3, hj4, hj5⟩ := ih (i + 1) s h
        refine ⟨j, by omega, by omega, hj3, hj4, fun k hk1 hk2 => ?_⟩
        rcases Nat.eq_or_lt_of_le hk1 with heq | hlt
        · subst heq; exact hu
        · exact hj5 k hlt hk2
      · rw [Bool.not_eq_true] at hu
        rw [hu] at h
        simp at h
        exact ⟨i, le_rfl, by omega, h.symm, hu, fun k hk1 hk2 => by omega⟩

/-- A successful rotation installs a salt that was not used before. -/
theorem SaltRegistry.set_new_ok (r : SaltRegistry) (derive : Nat → Salt) (ret : Salt)
    (r' : SaltRegistry) (h : r.set_new derive = .ok (ret, r')) :
    ret = r.current ∧
    r.is_used r'.current = false ∧
    (∃ j, j < 256 ∧ r'.current = derive j ∧
      ∀ k, k < j → r.is_used (derive k) = true) ∧
    r'.previous = (fun q => if q = r.current then some true else r.previous q) := by
  unfold set_new at h
  cases hd : r.derive_next_salt derive with
  | error e => rw [hd] at h; exact absurd h (by simp)
  | ok salt =>
      rw [hd] at h
      obtain ⟨j, _, hj2, hj3, hj4, hj5⟩ := deriveNextAux_ok r derive 256 0 salt hd
      injection h with h
      injection h with h1 h2
      subst h2
      refine ⟨h1.symm, ?_, ⟨j, by omega, hj3, fun k hk => hj5 k (by omega) hk⟩, rfl⟩
      show r.is_used salt = false
      rw [hj3]; exact hj4

/-! ## Registry-level helper lemmas -/

theorem Nonces.commit_snd (m : Nonces) (n : Nonce) :
    (m.commit n).2 = ⟨(m.bitmap.set_bit n).2⟩ := by
  simp only [Nonces.commit]
  split <;> rfl

theorem Nonces.commit_fst (m : Nonces) (n : Nonce) :
    (m.commit n).1 = if m.is_used n then .error .NonceUsed else .ok () := by
  simp only [Nonces.commit, Nonces.is_used, BitMap256.set_bit_fst]
  split <;> simp_all

theorem Nonces.is_used_commit_self (m : Nonces) (n : Nonce) :
    (m.commit n).2.is_used n = true := by
  rw [Nonces.commit_snd]
  exact BitMap256.get_bit_set_bit_self m.bitmap n

theorem Nonces.commit_used_frame (m : Nonces) (n : Nonce)
    (h : m.is_used n = true) (x : Nonce) :
    (m.commit n).2.is_used x = m.is_used x := by
  rw [Nonces.commit_snd]
  show ((m.bitmap.set_bit n).2.get_bit x) = m.bitmap.get_bit x
  unfold BitMap256.get_bit
  rw [BitMap256.set_bit_already_set m.bitmap n h]

/-- C1: committing an unused nonce succeeds and persists its bit; committing
an already-used nonce (in particular a second commit of the same nonce)
fails with `NonceUsed` and leaves the used-set unchanged. -/
theorem C1_nonce_commit_no_double_use (m : Nonces) (n : Nonce) :
    (m.is_used n = false →
      (m.commit n).1 = .ok () ∧ (m.commit n).2.is_used n = true) ∧
    (m.is_used n = true →
      (m.commit n).1 = .error .NonceUsed ∧
        ∀ x, (m.commit n).2.is_used x = m.is_used x) ∧
    ((m.commit n).2.commit n).1 = .error .NonceUsed := by
  refine ⟨fun h => ⟨?_, Nonces.is_used_commit_self m n⟩,
    fun h => ⟨?_, Nonces.commit_used_frame m n h⟩, ?_⟩
  · rw [Nonces.commit_fst, h]; rfl
  · rw [Nonces.commit_fst, h]; rfl
  · rw [Nonces.commit_fst, Nonces.is_used_commit_self m n]; rfl

/-- Witness for C1 at a concrete empty registry and the all-zero nonce. -/
theorem C1_nonce_commit_no_double_use_witness :
    ((Nonces.mk ⟨fun _ => none⟩).is_used (List.replicate 32 (0 : Byte)) = false ∧
      ((Nonces.mk ⟨fun _ => none⟩).commit (List.replicate 32 (0 : Byte))).1 = .ok ()) ∧
    (((Nonces.mk ⟨fun _ => none⟩).commit
        (List.replicate 32 (0 : Byte))).2.commit (List.replicate 32 (0 : Byte))).1 =
      .error .NonceUsed := by
  have h := C1_nonce_commit_no_double_use (Nonces.mk ⟨fun _ => none⟩)
    (List.replicate 32 (0 : Byte))
  have hu : (Nonces.mk ⟨fun _ => none⟩).is_used (List.replicate 32 (0 : Byte)) = false := rfl
  exact ⟨⟨hu, (h.1 hu).1⟩, h.2.2⟩

theorem MaybeLegacyNonces.applyOp_legacy (s : MaybeLegacyNonces) (op : NonceOp) :
    (s.applyOp op).legacy = s.legacy := by
  cases op with
  | commit n =>
      simp only [MaybeLegacyNonces.applyOp, MaybeLegacyNonces.commit]
      split <;> rfl
  | cleanup p => rfl

theorem MaybeLegacyNonces.applyOps_legacy (ops : List NonceOp) :
    ∀ s : MaybeLegacyNonces, (s.applyOps ops).legacy = s.legacy := by
  induction ops with
  | nil => intro s; rfl
  | cons op ops ih =>
      intro s
      show ((s.applyOp op).applyOps ops).legacy = s.legacy
      rw [ih (s.applyOp op), MaybeLegacyNonces.applyOp_legacy]

/-- C8: once migrated, the legacy registry is immutable: after any sequence
of commits and prefix-cleanups on `with_legacy L N`, the legacy component
is still exactly `L`, every nonce used in `L` still reports used, and a
commit of such a nonce fails `NonceUsed` without mutating anything. -/
theorem C8_legacy_nonces_immutable (L N : Nonces) (ops : List NonceOp) :
    ((MaybeLegacyNonces.with_legacy L N).applyOps ops).legacy = some L ∧
    (∀ n, L.is_used n = true →
      ((MaybeLegacyNonces.with_legacy L N).applyOps ops).is_used n = true) ∧
    (∀ n, L.is_used n = true →
      (((MaybeLegacyNonces.with_legacy L N).applyOps ops).commit n).1 =
          .error .NonceUsed ∧
        (((MaybeLegacyNonces.with_legacy L N).applyOps ops).commit n).2 =
          (MaybeLegacyNonces.with_legacy L N).applyOps ops) := by
  have hleg : ((MaybeLegacyNonces.with_legacy L N).applyOps ops).legacy = some L :=
    MaybeLegacyNonces.applyOps_legacy ops _
  refine ⟨hleg, fun n hn => ?_, fun n hn => ?_⟩
  · unfold MaybeLegacyNonces.is_used
    rw [hleg]
    simp [hn]
  · constructor <;>
      · unfold MaybeLegacyNonces.commit
        rw [hleg]
        simp [hn]

/-- Witness for C8: a one-nonce legacy registry survives a commit attempt
and a cleanup of its own prefix. -/
theorem C8_legacy_nonces_immutable_witness :
    (Nonces.mk ⟨fun p => if p = List.replicate 31 (0 : Byte) then some 1 else none⟩).is_used
        (List.replicate 32 (0 : Byte)) = true ∧
    ((MaybeLegacyNonces.with_legacy
        (Nonces.mk ⟨fun p => if p = List.replicate 31 (0 : Byte) then some 1 else none⟩)
        (Nonces.mk ⟨fun _ => none⟩)).applyOps
        [.commit (List.replicate 32 (0 : Byte)),
         .cleanup (List.replicate 31 (0 : Byte))]).is_used
        (List.replicate 32 (0 : Byte)) = true := by
  refine ⟨by decide, ?_⟩
  exact (C8_legacy_nonces_immutable _ _ _).2.1 _ (by decide)

/-- C5: rotation fails with `SaltGenerationFailed` iff all 256 derivation
attempts are already used; on success it installs the first unused
candidate, demotes the old current with validity `true`, keeps both valid,
touches no other salt, and returns the demoted salt. -/
theorem C5_salt_rotation (r : SaltRegistry) (derive : Nat → Salt) :
    ((∀ k, k < 256 → r.is_used (derive k) = true) →
      r.set_new derive = .error .SaltGenerationFailed) ∧
    (∀ ret r', r.set_new derive = .ok (ret, r') →
      ret = r.current ∧
      r'.previous r.current = some true ∧
      (∃ j, j < 256 ∧ r'.current = derive j ∧ r.is_used (derive j) = false ∧
        ∀ k, k < j → r.is_used (derive k) = true) ∧
      r'.is_valid r'.current = true ∧
      r'.is_valid r.current = true ∧
      (∀ q, q ≠ r.current → r'.previous q = r.previous q)) := by
  constructor
  · intro h
    unfold SaltRegistry.set_new SaltRegistry.derive_next_salt
    rw [SaltRegistry.deriveNextAux_error r derive 256 0
      (fun k _ hk => h k (by omega))]
  · intro ret r' h
    obtain ⟨hret, hunused, ⟨j, hj1, hj2, hj3⟩, hprev⟩ :=
      SaltRegistry.set_new_ok r derive ret r' h
    have hcur : r'.previous r.current = some true := by
      rw [hprev]; simp
    refine ⟨hret, hcur, ⟨j, hj1, hj2, hj2 ▸ hunused, hj3⟩, ?_, ?_, ?_⟩
    · unfold SaltRegistry.is_valid; simp
    · unfold SaltRegistry.is_valid
      rw [hcur]
      simp
    · intro q hq
      rw [hprev]
      simp [hq]

/-- Witness for C5: rotating a registry whose derivation yields a fresh salt
at attempt 0 demotes the old current and returns it. -/
theorem C5_salt_rotation_witness :
    (SaltRegistry.mk (fun _ => none) ⟨0, 0, 0, 0⟩).set_new
        (fun _ => ⟨1, 0, 0, 0⟩) =
      .ok (⟨0, 0, 0, 0⟩,
        { previous := fun q => if q = ⟨0, 0, 0, 0⟩ then some true else none
          current := ⟨1, 0, 0, 0⟩ }) ∧
    (⟨0, 0, 0, 0⟩ : Salt) = (SaltRegistry.mk (fun _ => none) ⟨0, 0, 0, 0⟩).current ∧
    ((SaltRegistry.mk (fun _ => none) ⟨0, 0, 0, 0⟩).set_new
          (fun _ => ⟨1, 0, 0, 0⟩) |>.map fun p => p.2.is_valid p.1) = .ok true := by
  have h := (C5_salt_rotation (SaltRegistry.mk (fun _ => none) ⟨0, 0, 0, 0⟩)
    (fun _ => ⟨1, 0, 0, 0⟩)).2 ⟨0, 0, 0, 0⟩
    { previous := fun q => if q = ⟨0, 0, 0, 0⟩ then some true else none
      current := ⟨1, 0, 0, 0⟩ } rfl
  exact ⟨rfl, h.1, by rw [show
    ((SaltRegistry.mk (fun _ => none) ⟨0, 0, 0, 0⟩).set_new
      (fun _ => ⟨1, 0, 0, 0⟩)) = .ok (_, _) from rfl]; exact congrArg Except.ok h.2.2.2.2.1⟩

/-- C6: invalidating the current salt first rotates and then revokes it;
invalidating a tracked previous salt revokes it and keeps the current salt;
invalidating an unknown salt fails with `InvalidSalt`. -/
theorem C6_salt_invalidate (r : SaltRegistry) (derive : Nat → Salt) (s : Salt) :
    (s = r.current → ∀ r', r.invalidate derive s = .ok r' →
      r'.current ≠ s ∧ r'.is_valid s = false) ∧
    (s ≠ r.current → (r.previous s).isSome = true → ∃ r',
      r.invalidate derive s = .ok r' ∧ r'.is_valid s = false ∧
      r'.current = r.current) ∧
    (s ≠ r.current → r.previous s = none →
      r.invalidate derive s = .error .InvalidSalt) := by
  refine ⟨fun hs r' h => ?_, fun hs hsome => ?_, fun hs hnone => ?_⟩
  · unfold SaltRegistry.invalidate at h
    rw [if_pos hs] at h
    cases hsn : r.set_new derive with
    | error e => rw [hsn] at h; exact absurd h (by simp)
    | ok p =>
        obtain ⟨ret, r1⟩ := p
        rw [hsn] at h
        dsimp only at h
        obtain ⟨-, hunused, -, hprev⟩ :=
          SaltRegistry.set_new_ok r derive ret r1 hsn
        have hr1s : r1.previous s = some true := by rw [hprev, hs]; simp
        rw [hr1s] at h
        dsimp only at h
        injection h with h
        subst h
        have hne : r1.current ≠ s := by
          intro he
          rw [he, hs] at hunused
          unfold SaltRegistry.is_used at hunused
          simp at hunused
        have hsne : s ≠ r1.current := fun he => hne he.symm
        refine ⟨hne, ?_⟩
        unfold SaltRegistry.is_valid
        simp [hsne]
  · unfold SaltRegistry.invalidate
    rw [if_neg hs]
    cases hp : r.previous s with
    | none => rw [hp] at hsome; simp at hsome
    | some b =>
        dsimp only
        refine ⟨_, rfl, ?_, rfl⟩
        unfold SaltRegistry.is_valid
        simp [hs]
  · unfold SaltRegistry.invalidate
    rw [if_neg hs, hnone]

/-- Witness for C6: invalidating the current salt of a fresh registry
rotates to a new salt and revokes the old one; invalidating a tracked
previous salt revokes it in place; an unknown salt is rejected. -/
theorem C6_salt_invalidate_witness :
    ((SaltRegistry.mk (fun _ => none) ⟨0, 0, 0, 0⟩).invalidate
        (fun _ => ⟨1, 0, 0, 0⟩) ⟨0, 0, 0, 0⟩ =
      .ok { previous := fun q => if q = (⟨0, 0, 0, 0⟩ : Salt) then some false
              else if q = (⟨0, 0, 0, 0⟩ : Salt) then some true else none
            current := ⟨1, 0, 0, 0⟩ } ∧
      ((⟨1, 0, 0, 0⟩ : Salt) ≠ (⟨0, 0, 0, 0⟩ : Salt)) ∧
      SaltRegistry.is_valid
        { previous := fun q => if q = (⟨0, 0, 0, 0⟩ : Salt) then some false
            else if q = (⟨0, 0, 0, 0⟩ : Salt) then some true else none
          current := ⟨1, 0, 0, 0⟩ } ⟨0, 0, 0, 0⟩ = false) ∧
    (∃ r', (SaltRegistry.mk
          (fun q => if q = (⟨2, 0, 0, 0⟩ : Salt) then some true else none)
          ⟨0, 0, 0, 0⟩).invalidate (fun _ => ⟨1, 0, 0, 0⟩) ⟨2, 0, 0, 0⟩ =
        .ok r' ∧ r'.is_valid ⟨2, 0, 0, 0⟩ = false ∧ r'.current = ⟨0, 0, 0, 0⟩) ∧
    (SaltRegistry.mk (fun _ => none) ⟨0, 0, 0, 0⟩).invalidate
        (fun _ => ⟨1, 0, 0, 0⟩) ⟨3, 0, 0, 0⟩ = .error .InvalidSalt := by
  refine ⟨⟨rfl, ?_, ?_⟩, ?_, ?_⟩
  · exact ((C6_salt_invalidate (SaltRegistry.mk (fun _ => none) ⟨0, 0, 0, 0⟩)
      (fun _ => ⟨1, 0, 0, 0⟩) ⟨0, 0, 0, 0⟩).1 rfl _ rfl).1
  · exact ((C6_salt_invalidate (SaltRegistry.mk (fun _ => none) ⟨0, 0, 0, 0⟩)
      (fun _ => ⟨1, 0, 0, 0⟩) ⟨0, 0, 0, 0⟩).1 rfl _ rfl).2
  · exact (C6_salt_invalidate (SaltRegistry.mk
      (fun q => if q = (⟨2, 0, 0, 0⟩ : Salt) then some true else none)
      ⟨0, 0, 0, 0⟩) (fun _ => ⟨1, 0, 0, 0⟩) ⟨2, 0, 0, 0⟩).2.1
      (by decide) (by decide)
  · exact (C6_salt_invalidate (SaltRegistry.mk (fun _ => none) ⟨0, 0, 0, 0⟩)
      (fun _ => ⟨1, 0, 0, 0⟩) ⟨3, 0, 0, 0⟩).2.2 (by decide) rfl

theorem SaltRegistry.applyOp_preserves_dead (r : SaltRegistry) (op : SaltOp)
    (s : Salt) (h1 : r.previous s = some false) (h2 : s ≠ r.current) :
    (r.applyOp op).previous s = some false ∧ s ≠ (r.applyOp op).current := by
  have hused : r.is_used s = true := by
    unfold SaltRegistry.is_used
    simp [h1]
  cases op with
  | setNew d =>
      simp only [SaltRegistry.applyOp]
      cases hsn : r.set_new d with
      | error e => exact ⟨h1, h2⟩
      | ok p =>
          obtain ⟨ret, r'⟩ := p
          dsimp only
          obtain ⟨-, hunused, -, hprev⟩ := SaltRegistry.set_new_ok r d ret r' hsn
          refine ⟨by rw [hprev]; simp [h2, h1], fun he => ?_⟩
          rw [← he, hused] at hunused
          exact absurd hunused (by simp)
  | invalidate d t =>
      simp only [SaltRegistry.applyOp]
      cases hinv : r.invalidate d t with
      | error e => exact ⟨h1, h2⟩
      | ok r2 =>
          dsimp only
          unfold SaltRegistry.invalidate at hinv
          by_cases ht : t = r.current
          · rw [if_pos ht] at hinv
            cases hsn : r.set_new d with
            | error e => rw [hsn] at hinv; exact absurd hinv (by simp)
            | ok p =>
                obtain ⟨ret, r1⟩ := p
                rw [hsn] at hinv
                dsimp only at hinv
                obtain ⟨-, hunused, -, hprev⟩ :=
                  SaltRegistry.set_new_ok r d ret r1 hsn
                have hr1t : r1.previous t = some true := by
                  rw [hprev, ht]; simp
                rw [hr1t] at hinv
                dsimp only at hinv
                injection hinv with hinv
                subst hinv
                have hst : s ≠ t := fun he => h2 (he.trans ht)
                refine ⟨?_, fun he => ?_⟩
                · show (if s = t then some false else r1.previous s) = some false
                  rw [if_neg hst, hprev]
                  simp [h2, h1]
                · rw [← he, hused] at hunused
                  exact absurd hunused (by simp)
          · rw [if_neg ht] at hinv
            cases hp : r.previous t with
            | none => rw [hp] at hinv; exact absurd hinv (by simp)
            | some b =>
                rw [hp] at hinv
                dsimp only at hinv
                injection hinv with hinv
                subst hinv
                refine ⟨?_, h2⟩
                show (if s = t then some false else r.previous s) = some false
                by_cases hst : s = t
                · rw [if_pos hst]
                · rw [if_neg hst, h1]

theorem SaltRegistry.applyOps_preserves_dead (ops : List SaltOp) :
    ∀ (r : SaltRegistry) (s : Salt), r.previous s = some false → s ≠ r.current →
      (r.applyOps ops).previous s = some false ∧ s ≠ (r.applyOps ops).current := by
  induction ops with
  | nil => exact fun r s h1 h2 => ⟨h1, h2⟩
  | cons op ops ih =>
      intro r s h1 h2
      obtain ⟨h1', h2'⟩ := SaltRegistry.applyOp_preserves_dead r op s h1 h2
      exact ih (r.applyOp op) s h1' h2'

/-- C10: an invalidated salt can never become valid again: rotation only
installs salts that are not already tracked, so no sequence of rotations
and invalidations re-validates a salt whose `previous` flag is `false`. -/
theorem C10_invalidation_is_permanent (r : SaltRegistry) (ops : List SaltOp)
    (s : Salt) (h1 : r.is_valid s = false) (h2 : (r.previous s).isSome = true) :
    (r.applyOps ops).is_valid s = false ∧
      ((r.applyOps ops).previous s).isSome = true := by
  unfold SaltRegistry.is_valid at h1
  have hcur : s ≠ r.current := by
    intro he
    rw [he] at h1
    simp at h1
  have hfalse : r.previous s = some false := by
    cases hp : r.previous s with
    | none => rw [hp] at h2; exact absurd h2 (by simp)
    | some b =>
        rw [hp] at h1
        cases b with
        | false => rfl
        | true => simp at h1
  obtain ⟨h1', h2'⟩ := SaltRegistry.applyOps_preserves_dead ops r s hfalse hcur
  unfold SaltRegistry.is_valid
  rw [h1']
  simp [h2']

/-- Witness for C10: a salt invalidated in a two-entry registry stays
invalid across a rotation followed by an invalidation of the new current. -/
theorem C10_invalidation_is_permanent_witness :
    ((SaltRegistry.mk (fun q => if q = ⟨2, 0, 0, 0⟩ then some false else none)
        ⟨0, 0, 0, 0⟩).is_valid ⟨2, 0, 0, 0⟩ = false ∧
      ((SaltRegistry.mk (fun q => if q = ⟨2, 0, 0, 0⟩ then some false else none)
        ⟨0, 0, 0, 0⟩).previous ⟨2, 0, 0, 0⟩).isSome = true) ∧
    ((SaltRegistry.mk (fun q => if q = ⟨2, 0, 0, 0⟩ then some false else none)
        ⟨0, 0, 0, 0⟩).applyOps
        [.setNew (fun _ => ⟨1, 0, 0, 0⟩),
         .invalidate (fun k => ⟨3, ⟨k % 256, Nat.mod_lt _ (by norm_num)⟩, 0, 0⟩)
           ⟨1, 0, 0, 0⟩]).is_valid ⟨2, 0, 0, 0⟩ = false := by
  refine ⟨⟨by decide, by decide⟩, ?_⟩
  exact (C10_invalidation_is_permanent _ _ _ (by decide) (by decide)).1

/-! ## Versioned-nonce codec lemmas (C7) -/

theorem VersionedNonce.encode_length (sn : SaltedNonce (ExpirableNonce Bytes))
    (h : sn.nonce.nonce.length = 15) :
    (VersionedNonce.encode (.V1 sn)).length = 32 := by
  unfold VersionedNonce.encode
  simp [VERSIONED_MAGIC_PREFIX, Salt.encode, natToLE_length, h]

theorem VersionedNonce.maybe_from_encode (sn : SaltedNonce (ExpirableNonce Bytes))
    (h : sn.nonce.nonce.length = 15) :
    VersionedNonce.maybe_from (VersionedNonce.encode (.V1 sn)) =
      some (.V1 sn) := by
  have hlen := VersionedNonce.encode_length sn h
  have hmagiclen : VERSIONED_MAGIC_PREFIX.length = 4 := rfl
  have hsaltlen : sn.salt.encode.length = 4 := rfl
  have hdllen : (natToLE 8 sn.nonce.deadline.val).length = 8 := natToLE_length 8 _
  unfold VersionedNonce.maybe_from
  rw [if_pos ⟨hlen, by rw [VersionedNonce.encode, List.take_left' hmagiclen]⟩]
  have hdrop : (VersionedNonce.encode (.V1 sn)).drop 4 =
      (0 : Byte) :: (sn.salt.encode ++
        (natToLE 8 sn.nonce.deadline.val ++ sn.nonce.nonce)) := by
    rw [VersionedNonce.encode, List.drop_left' hmagiclen]
  rw [hdrop]
  dsimp only
  rw [if_pos rfl]
  have hval : leToNat (natToLE 8 sn.nonce.deadline.val) % 2 ^ 64 =
      sn.nonce.deadline.val := by
    rw [leToNat_natToLE]
    have h64 : (256 : Nat) ^ 8 = 2 ^ 64 := by norm_num
    rw [h64, Nat.mod_eq_of_lt (Nat.mod_lt _ (by norm_num)),
      Nat.mod_eq_of_lt sn.nonce.deadline.isLt]
  show some (VersionedNonce.V1
    { salt := sn.salt
      nonce := { deadline := ⟨leToNat (natToLE 8 sn.nonce.deadline.val) % 2 ^ 64,
                   Nat.mod_lt _ (by norm_num)⟩
                 nonce := sn.nonce.nonce } }) = some (.V1 sn)
  simp only [hval, Fin.eta]

theorem VersionedNonce.maybe_from_not_versioned (n : Bytes)
    (h : n.take 4 ≠ VERSIONED_MAGIC_PREFIX ∨ (n.drop 4).head? ≠ some (0 : Byte)) :
    VersionedNonce.maybe_from n = none := by
  unfold VersionedNonce.maybe_from
  by_cases hm : n.length = 32 ∧ n.take 4 = VERSIONED_MAGIC_PREFIX
  · rw [if_pos hm]
    have ht : (n.drop 4).head? ≠ some (0 : Byte) := h.resolve_left (by simp [hm.2])
    cases hd : n.drop 4 with
    | nil => rfl
    | cons t rest =>
        rw [hd] at ht
        simp only [List.head?_cons, ne_eq, Option.some.injEq] at ht
        dsimp only
        rw [if_neg ht]
  · rw [if_neg hm]

/-- C7: encoding a `V1` versioned nonce and decoding it yields the original
value, and any 32-byte value whose first four bytes are not the magic
constant, or whose tag byte is not a known variant, decodes as `none`. -/
theorem C7_versioned_roundtrip :
    (∀ sn : SaltedNonce (ExpirableNonce Bytes), sn.nonce.nonce.length = 15 →
      VersionedNonce.maybe_from (VersionedNonce.encode (.V1 sn)) =
        some (.V1 sn)) ∧
    (∀ n : Bytes, n.length = 32 →
      n.take 4 ≠ VersionedNonce.VERSIONED_MAGIC_PREFIX ∨
        (n.drop 4).head? ≠ some (0 : Byte) →
      VersionedNonce.maybe_from n = none) :=
  ⟨VersionedNonce.maybe_from_encode,
   fun n _ h => VersionedNonce.maybe_from_not_versioned n h⟩

/-- Witness for C7: a concrete `V1` nonce round-trips, and the all-zero
32-byte legacy value decodes as `none`. -/
theorem C7_versioned_roundtrip_witness :
    VersionedNonce.maybe_from (VersionedNonce.encode
        (.V1 ⟨⟨1, 2, 3, 4⟩, ⟨(1000 : Fin (2 ^ 64)), List.replicate 15 (7 : Byte)⟩⟩)) =
      some (.V1 ⟨⟨1, 2, 3, 4⟩, ⟨(1000 : Fin (2 ^ 64)), List.replicate 15 (7 : Byte)⟩⟩) ∧
    VersionedNonce.maybe_from (List.replicate 32 (0 : Byte)) = none := by
  constructor
  · exact C7_versioned_roundtrip.1 _ (by decide)
  · exact C7_versioned_roundtrip.2 _ (by decide) (by decide)

/-- C4: admission of a versioned nonce requires `nd >= D`
(`InvalidNonceDeadline`), an unexpired embedded deadline
(`DeadlineExpired`) and a valid salt (`InvalidSalt`), in that order, before
committing; a nonce that does not decode as versioned undergoes only the
replay check of the registry commit. -/
theorem C4_nonce_admission (salts : SaltRegistry) (reg : MaybeLegacyNonces)
    (now D : Deadline) (n : Nonce) :
    (∀ sn, VersionedNonce.maybe_from n = some (.V1 sn) →
      (sn.nonce.deadline.toInt < D.toInt →
        commit_nonce salts reg now D n = (.error .InvalidNonceDeadline, reg)) ∧
      (D.toInt ≤ sn.nonce.deadline.toInt →
        sn.nonce.deadline.has_expired now = true →
        commit_nonce salts reg now D n = (.error .DeadlineExpired, reg)) ∧
      (D.toInt ≤ sn.nonce.deadline.toInt →
        sn.nonce.deadline.has_expired now = false →
        salts.is_valid sn.salt = false →
        commit_nonce salts reg now D n = (.error .InvalidSalt, reg)) ∧
      (D.toInt ≤ sn.nonce.deadline.toInt →
        sn.nonce.deadline.has_expired now = false →
        salts.is_valid sn.salt = true →
        commit_nonce salts reg now D n = reg.commit n)) ∧
    (VersionedNonce.maybe_from n = none →
      commit_nonce salts reg now D n = reg.commit n) := by
  constructor
  · intro sn hv
    unfold commit_nonce
    rw [hv]
    dsimp only
    refine ⟨fun hlt => ?_, fun hge hexp => ?_, fun hge hexp hsalt => ?_,
      fun hge hexp hsalt => ?_⟩
    · rw [if_pos hlt]
    · rw [if_neg (not_lt.mpr hge), if_pos hexp]
    · rw [if_neg (not_lt.mpr hge), if_neg (by rw [hexp]; simp), if_pos hsalt]
    · rw [if_neg (not_lt.mpr hge), if_neg (by rw [hexp]; simp),
        if_neg (by rw [hsalt]; simp)]
  · intro hv
    unfold commit_nonce
    rw [hv]

/-- Witness for C4: a concrete versioned nonce is rejected for an invalid
salt; a concrete legacy nonce is only replay-checked. -/
theorem C4_nonce_admission_witness :
    (VersionedNonce.maybe_from (VersionedNonce.encode
        (.V1 ⟨⟨9, 9, 9, 9⟩, ⟨(1000 : Fin (2 ^ 64)), List.replicate 15 (7 : Byte)⟩⟩)) =
      some (.V1 ⟨⟨9, 9, 9, 9⟩, ⟨(1000 : Fin (2 ^ 64)), List.replicate 15 (7 : Byte)⟩⟩) ∧
    commit_nonce (SaltRegistry.mk (fun _ => none) ⟨0, 0, 0, 0⟩)
        (MaybeLegacyNonces.new ⟨⟨fun _ => none⟩⟩) (0 : Fin (2 ^ 64))
        (500 : Fin (2 ^ 64))
        (VersionedNonce.encode
          (.V1 ⟨⟨9, 9, 9, 9⟩, ⟨(1000 : Fin (2 ^ 64)), List.replicate 15 (7 : Byte)⟩⟩)) =
      (.error .InvalidSalt, MaybeLegacyNonces.new ⟨⟨fun _ => none⟩⟩)) ∧
    (VersionedNonce.maybe_from (List.replicate 32 (1 : Byte)) = none ∧
    commit_nonce (SaltRegistry.mk (fun _ => none) ⟨0, 0, 0, 0⟩)
        (MaybeLegacyNonces.new ⟨⟨fun _ => none⟩⟩) (0 : Fin (2 ^ 64))
        (500 : Fin (2 ^ 64)) (List.replicate 32 (1 : Byte)) =
      (MaybeLegacyNonces.new ⟨⟨fun _ => none⟩⟩).commit (List.replicate 32 (1 : Byte))) := by
  constructor
  · refine ⟨by decide, ?_⟩
    exact (((C4_nonce_admission _ _ _ _ _).1
      ⟨⟨9, 9, 9, 9⟩, ⟨(1000 : Fin (2 ^ 64)), List.replicate 15 (7 : Byte)⟩⟩
      (by decide)).2.2.1 (by decide) (by decide) (by decide))
  · refine ⟨by decide, ?_⟩
    exact (C4_nonce_admission _ _ _ _ _).2 (by decide)

/-! ## Garbage-collection lemmas (C9) -/

theorem VersionedNonce.maybe_from_some_length (n : Bytes) (v : VersionedNonce)
    (h : VersionedNonce.maybe_from n = some v) : n.length = 32 := by
  unfold VersionedNonce.maybe_from at h
  by_cases hc : n.length = 32 ∧ n.take 4 = VERSIONED_MAGIC_PREFIX
  · exact hc.1
  · rw [if_neg hc] at h
    cases h

theorem Contract.is_nonce_cleanable_length (c : Contract) (n : Bytes)
    (h : c.is_nonce_cleanable n = true) : n.length = 32 := by
  unfold Contract.is_nonce_cleanable at h
  cases hv : VersionedNonce.maybe_from n with
  | none => rw [hv] at h; simp at h
  | some v => exact VersionedNonce.maybe_from_some_length n v hv

/-- Positional characterization of cleanability for 32-byte nonces: it reads
only the magic prefix, the tag byte, the salt bytes 5..8 and the deadline
bytes 9..16 — never the random tail. -/
theorem Contract.is_nonce_cleanable_eq (c : Contract) (m : Bytes)
    (hm : m.length = 32) :
    c.is_nonce_cleanable m =
      if m.take 4 = VersionedNonce.VERSIONED_MAGIC_PREFIX ∧
          m[4]? = some (0 : Byte) then
        (Deadline.has_expired
            ⟨leToNat ((m.drop 9).take 8) % 2 ^ 64, Nat.mod_lt _ (by norm_num)⟩
            c.now
          || !c.salts.is_valid (Salt.ofBytes ((m.drop 5).take 4)))
      else false := by
  unfold Contract.is_nonce_cleanable VersionedNonce.maybe_from
  by_cases hmag : m.take 4 = VersionedNonce.VERSIONED_MAGIC_PREFIX
  · rw [if_pos ⟨hm, hmag⟩]
    cases hd : m.drop 4 with
    | nil =>
        exfalso
        have hlen : (m.drop 4).length = m.length - 4 := List.length_drop 4 m
        rw [hd, hm] at hlen
        simp at hlen
    | cons t rest =>
        have h4 : m[4]? = some t := by
          rw [← List.head?_drop, hd]
          rfl
        have hrest : rest = m.drop 5 := by
          have ht := List.tail_drop m 4
          rw [hd] at ht
          simpa using ht
        have hdd : (m.drop 5).drop 4 = m.drop 9 := by
          rw [List.drop_drop]
        by_cases ht0 : t = (0 : Byte)
        · subst ht0
          dsimp only
          rw [if_pos rfl]
          dsimp only
          rw [if_pos ⟨hmag, h4⟩, hrest]
          simp only [hdd]
        · dsimp only
          rw [if_neg ht0,
            if_neg (fun hc => ht0 (by rw [h4] at hc; injection hc.2))]
  · rw [if_neg (fun hc => hmag hc.2), if_neg (fun hc => hmag hc.1)]

/-- Two 32-byte nonces agreeing on their first 17 bytes are equally
cleanable. -/
theorem Contract.is_nonce_cleanable_congr (c : Contract) (m n' : Bytes)
    (hm : m.length = 32) (hn : n'.length = 32) (h : m.take 17 = n'.take 17) :
    c.is_nonce_cleanable m = c.is_nonce_cleanable n' := by
  have h4 : m.take 4 = n'.take 4 := by
    have h1 : (m.take 17).take 4 = m.take 4 := by rw [List.take_take]; norm_num
    have h2 : (n'.take 17).take 4 = n'.take 4 := by rw [List.take_take]; norm_num
    rw [← h1, ← h2, h]
  have hg : m[4]? = n'[4]? := by
    have h1 : (m.take 17)[4]? = m[4]? := by simp [List.getElem?_take]
    have h2 : (n'.take 17)[4]? = n'[4]? := by simp [List.getElem?_take]
    rw [← h1, ← h2, h]
  have h54 : (m.drop 5).take 4 = (n'.drop 5).take 4 := by
    have h1 : ((m.take 17).drop 5).take 4 = (m.drop 5).take 4 := by
      rw [List.drop_take, List.take_take]; norm_num
    have h2 : ((n'.take 17).drop 5).take 4 = (n'.drop 5).take 4 := by
      rw [List.drop_take, List.take_take]; norm_num
    rw [← h1, ← h2, h]
  have h98 : (m.drop 9).take 8 = (n'.drop 9).take 8 := by
    have h1 : ((m.take 17).drop 9).take 8 = (m.drop 9).take 8 := by
      rw [List.drop_take, List.take_take]; norm_num
    have h2 : ((n'.take 17).drop 9).take 8 = (n'.drop 9).take 8 := by
      rw [List.drop_take, List.take_take]; norm_num
    rw [← h1, ← h2, h]
  rw [Contract.is_nonce_cleanable_eq c m hm, Contract.is_nonce_cleanable_eq c n' hn]
  simp only [h4, hg, h54, h98]

theorem Contract.cleanupOne_salts (c : Contract) (a : AccountId) (n : Nonce) :
    (c.cleanupOne a n).salts = c.salts ∧ (c.cleanupOne a n).now = c.now := by
  unfold Contract.cleanupOne
  by_cases hcl : c.is_nonce_cleanable n = true
  · rw [if_pos hcl]
    unfold Contract.cleanup_nonce_by_prefix
    cases c.accounts a <;> exact ⟨rfl, rfl⟩
  · rw [if_neg hcl]
    exact ⟨rfl, rfl⟩

/-- Cleanability reads only the salt registry and the clock. -/
theorem Contract.is_nonce_cleanable_ext (c d : Contract) (hs : c.salts = d.salts)
    (hn : c.now = d.now) (n : Nonce) :
    c.is_nonce_cleanable n = d.is_nonce_cleanable n := by
  unfold Contract.is_nonce_cleanable
  rw [hs, hn]

theorem Nonces.cleanup_other_prefix_is_used (reg : Nonces) (p : NoncePrefix)
    (m : Nonce) (h : noncePrefix m ≠ p) :
    (reg.cleanup_by_prefix p).2.is_used m = reg.is_used m := by
  unfold Nonces.cleanup_by_prefix Nonces.is_used BitMap256.cleanup_by_prefix
  cases hw : reg.bitmap.words p with
  | none => rfl
  | some w =>
      dsimp only
      unfold BitMap256.get_bit
      dsimp only
      rw [if_neg h]

theorem MaybeLegacyNonces.cleanup_other_prefix_keeps_used (s : MaybeLegacyNonces)
    (p : NoncePrefix) (m : Nonce) (h : noncePrefix m ≠ p) :
    (s.cleanup_by_prefix p).2.is_used m = s.is_used m := by
  unfold MaybeLegacyNonces.cleanup_by_prefix MaybeLegacyNonces.is_used
  dsimp only
  rw [Nonces.cleanup_other_prefix_is_used s.nonces p m h]

/-- One GC iteration never clears the used-bit of a non-cleanable nonce. -/
theorem Contract.cleanupOne_preserves (c : Contract) (a' : AccountId)
    (n' : Nonce) (a : AccountId) (m : Nonce) (hm : m.length = 32)
    (hcl : c.is_nonce_cleanable m = false)
    (hused : c.is_nonce_used a m = true) :
    (c.cleanupOne a' n').is_nonce_used a m = true := by
  unfold Contract.cleanupOne
  by_cases hc : c.is_nonce_cleanable n' = true
  · rw [if_pos hc]
    have hn'len : n'.length = 32 := c.is_nonce_cleanable_length n' hc
    have hpref : noncePrefix m ≠ noncePrefix n' := by
      intro he
      have htake : m.take 17 = n'.take 17 := by
        have h1 : (m.dropLast).take 17 = m.take 17 := by
          rw [List.dropLast_eq_take, hm, List.take_take]; norm_num
        have h2 : (n'.dropLast).take 17 = n'.take 17 := by
          rw [List.dropLast_eq_take, hn'len, List.take_take]; norm_num
        rw [← h1, ← h2]
        exact congrArg (List.take 17) he
      have hcc := c.is_nonce_cleanable_congr m n' hm hn'len htake
      rw [hcl, hc] at hcc
      exact absurd hcc (by simp)
    unfold Contract.cleanup_nonce_by_prefix
    unfold Contract.is_nonce_used at hused ⊢
    cases hacc : c.accounts a' with
    | none => exact hused
    | some reg =>
        dsimp only
        by_cases ha : a = a'
        · subst ha
          rw [if_pos rfl]
          rw [hacc] at hused
          dsimp only [Option.elim] at hused ⊢
          rw [MaybeLegacyNonces.cleanup_other_prefix_keeps_used reg (noncePrefix n') m hpref]
          exact hused
        · rw [if_neg ha]
          exact hused
  · rw [if_neg hc]
    exact hused

theorem Contract.cleanupFoldNonces_preserves (ns : List Nonce) :
    ∀ (c : Contract) (a' a : AccountId) (m : Nonce), m.length = 32 →
      c.is_nonce_cleanable m = false → c.is_nonce_used a m = true →
      ((ns.foldl (fun c n => c.cleanupOne a' n) c).is_nonce_used a m = true ∧
        (ns.foldl (fun c n => c.cleanupOne a' n) c).salts = c.salts ∧
        (ns.foldl (fun c n => c.cleanupOne a' n) c).now = c.now) := by
  induction ns with
  | nil => exact fun c a' a m _ _ h => ⟨h, rfl, rfl⟩
  | cons n ns ih =>
      intro c a' a m hm hcl hused
      obtain ⟨hs, hn⟩ := Contract.cleanupOne_salts c a' n
      have hcl' : (c.cleanupOne a' n).is_nonce_cleanable m = false := by
        rw [Contract.is_nonce_cleanable_ext (c.cleanupOne a' n) c hs hn m]
        exact hcl
      have hused' := Contract.cleanupOne_preserves c a' n a m hm hcl hused
      obtain ⟨h1, h2, h3⟩ := ih (c.cleanupOne a' n) a' a m hm hcl' hused'
      exact ⟨h1, h2.trans hs, h3.trans hn⟩

/-- C9: garbage collection never removes a used-bit that is still
semantically required: after `cleanup_nonces`, every 32-byte nonce that was
used and not cleanable (legacy, unexpired, or valid salt) is still reported
used, for every account. -/
theorem C9_cleanup_only_reclaims_expired (c : Contract)
    (entries : List (AccountId × List Nonce)) (a : AccountId) (m : Nonce)
    (hm : m.length = 32) (hcl : c.is_nonce_cleanable m = false)
    (hused : c.is_nonce_used a m = true) :
    (c.cleanup_nonces entries).is_nonce_used a m = true := by
  unfold Contract.cleanup_nonces
  induction entries generalizing c with
  | nil => exact hused
  | cons e es ih =>
      show ((es.foldl _ (e.2.foldl (fun c n => c.cleanupOne e.1 n) c)).is_nonce_used a m = true)
      obtain ⟨h1, h2, h3⟩ :=
        Contract.cleanupFoldNonces_preserves e.2 c e.1 a m hm hcl hused
      have hcl' : (e.2.foldl (fun c n => c.cleanupOne e.1 n) c).is_nonce_cleanable m = false := by
        rw [Contract.is_nonce_cleanable_ext _ c h2 h3 m]
        exact hcl
      exact ih _ hcl' h1

/-- Witness for C9: a used legacy (non-versioned) nonce listed for cleanup
survives the call. -/
theorem C9_cleanup_only_reclaims_expired_witness :
    ((List.replicate 32 (1 : Byte)).length = 32 ∧
      (Contract.mk
          (fun b => if b = 0 then some
            ⟨⟨⟨fun p => if p = List.replicate 31 (1 : Byte) then some (2 ^ 1) else none⟩⟩,
              none⟩ else none)
          (SaltRegistry.mk (fun _ => none) ⟨0, 0, 0, 0⟩)
          (0 : Fin (2 ^ 64))).is_nonce_cleanable (List.replicate 32 (1 : Byte)) = false ∧
      (Contract.mk
          (fun b => if b = 0 then some
            ⟨⟨⟨fun p => if p = List.replicate 31 (1 : Byte) then some (2 ^ 1) else none⟩⟩,
              none⟩ else none)
          (SaltRegistry.mk (fun _ => none) ⟨0, 0, 0, 0⟩)
          (0 : Fin (2 ^ 64))).is_nonce_used 0 (List.replicate 32 (1 : Byte)) = true) ∧
    ((Contract.mk
          (fun b => if b = 0 then some
            ⟨⟨⟨fun p => if p = List.replicate 31 (1 : Byte) then some (2 ^ 1) else none⟩⟩,
              none⟩ else none)
          (SaltRegistry.mk (fun _ => none) ⟨0, 0, 0, 0⟩)
          (0 : Fin (2 ^ 64))).cleanup_nonces
        [(0, [List.replicate 32 (1 : Byte)])]).is_nonce_used 0
        (List.replicate 32 (1 : Byte)) = true := by
  refine ⟨⟨by decide, by decide, by decide⟩, ?_⟩
  exact C9_cleanup_only_reclaims_expired _ _ _ _ (by decide) (by decide) (by decide)

/-! ## Settlement-engine lemmas (C2, C3) -/

theorem feeAdjusted_zero (raw : Int) : feeAdjusted raw Pips.ZERO = raw := by
  unfold feeAdjusted Pips.ZERO Pips.MAX
  by_cases h : 0 ≤ raw
  · rw [if_pos h]
    have hdiv : (raw.toNat * 1000000 + (1000000 - 0 - 1)) / 1000000 = raw.toNat := by
      omega
    rw [hdiv, Int.toNat_of_nonneg h]
  · rw [if_neg h]

theorem deltaAdjSum_zero (ds : TokenDeltas) (t : TokenId) :
    deltaAdjSum Pips.ZERO ds t = deltaSum ds t := by
  unfold deltaAdjSum deltaSum
  congr 1
  apply List.map_congr_left
  intro td _
  rw [feeAdjusted_zero]

theorem adjSum_zero (batch : List (AccountId × TokenDeltas)) (t : TokenId) :
    adjSum Pips.ZERO batch t = rawSum batch t := by
  unfold adjSum rawSum
  congr 1
  apply List.map_congr_left
  intro i _
  rw [deltaAdjSum_zero]

theorem lookupTok_eq_zero_of_not_mem (u : List (TokenId × Int)) (t : TokenId)
    (h : t ∉ u.map Prod.fst) : lookupTok u t = 0 := by
  induction u with
  | nil => rfl
  | cons e rest ih =>
      rw [List.map_cons, List.mem_cons, not_or] at h
      show (if e.1 = t then e.2 else lookupTok rest t) = 0
      rw [if_neg (fun he => h.1 he.symm)]
      exact ih h.2

theorem mem_keys_setTok (u : List (TokenId × Int)) (t : TokenId) (v : Int)
    (t' : TokenId) (h : t' ∈ (setTok u t v).map Prod.fst) :
    t' = t ∨ t' ∈ u.map Prod.fst := by
  induction u with
  | nil =>
      unfold setTok at h
      by_cases hv : v = 0
      · rw [if_pos hv] at h; simp at h
      · rw [if_neg hv] at h
        simp at h
        exact Or.inl h
  | cons e rest ih =>
      unfold setTok at h
      by_cases he : e.1 = t
      · rw [if_pos he] at h
        by_cases hv : v = 0
        · rw [if_pos hv] at h
          exact Or.inr (by simp; right; simpa using h)
        · rw [if_neg hv] at h
          simp at h
          rcases h with h | h
          · exact Or.inl h
          · exact Or.inr (by simp; right; exact h)
      · rw [if_neg he] at h
        simp at h
        rcases h with h | h
        · exact Or.inr (by simp [h])
        · rcases ih (by simpa using h) with h' | h'
          · exact Or.inl h'
          · exact Or.inr (by simp at h' ⊢; right; exact h')

theorem UKeys_setTok (u : List (TokenId × Int)) (t : TokenId) (v : Int)
    (h : UKeys u) : UKeys (setTok u t v) := by
  induction u with
  | nil =>
      unfold setTok
      by_cases hv : v = 0
      · rw [if_pos hv]; exact List.nodup_nil
      · rw [if_neg hv]; simp [UKeys]
  | cons e rest ih =>
      unfold UKeys at h ⊢
      rw [List.map_cons, List.nodup_cons] at h
      unfold setTok
      by_cases he : e.1 = t
      · rw [if_pos he]
        by_cases hv : v = 0
        · rw [if_pos hv]; exact h.2
        · rw [if_neg hv]
          rw [List.map_cons, List.nodup_cons]
          exact ⟨he ▸ h.1, h.2⟩
      · rw [if_neg he]
        rw [List.map_cons, List.nodup_cons]
        refine ⟨fun hmem => ?_, ih h.2⟩
        rcases mem_keys_setTok rest t v e.1 hmem with h' | h'
        · exact he h'
        · exact h.1 h'

theorem NZ_setTok (u : List (TokenId × Int)) (t : TokenId) (v : Int)
    (h : NZ u) : NZ (setTok u t v) := by
  induction u with
  | nil =>
      unfold setTok
      by_cases hv : v = 0
      · rw [if_pos hv]; intro e he; simp at he
      · rw [if_neg hv]
        intro e he
        simp at he
        rw [he]
        exact hv
  | cons e rest ih =>
      have hrest : NZ rest := fun x hx => h x (by simp [hx])
      unfold setTok
      by_cases he : e.1 = t
      · rw [if_pos he]
        by_cases hv : v = 0
        · rw [if_pos hv]; exact hrest
        · rw [if_neg hv]
          intro x hx
          rcases List.mem_cons.mp hx with hx | hx
          · rw [hx]; exact hv
          · exact hrest x hx
      · rw [if_neg he]
        intro x hx
        rcases List.mem_cons.mp hx with hx | hx
        · rw [hx]; exact h e (by simp)
        · exact ih hrest x hx

theorem lookupTok_setTok (u : List (TokenId × Int)) (t : TokenId) (v : Int)
    (t' : TokenId) (h : UKeys u) :
    lookupTok (setTok u t v) t' =
      if t' = t then (if v = 0 then 0 else v) else lookupTok u t' := by
  induction u with
  | nil =>
      unfold setTok
      by_cases hv : v = 0
      · rw [if_pos hv]
        show (0 : Int) = _
        by_cases h1 : t' = t <;> simp [h1, hv, lookupTok]
      · rw [if_neg hv]
        show (if t = t' then v else 0) = _
        by_cases h1 : t' = t
        · rw [if_pos h1.symm, if_pos h1, if_neg hv]
        · rw [if_neg (fun he => h1 he.symm), if_neg h1]
          rfl
  | cons e rest ih =>
      unfold UKeys at h
      rw [List.map_cons, List.nodup_cons] at h
      have hrest : UKeys rest := h.2
      unfold setTok
      by_cases he : e.1 = t
      · rw [if_pos he]
        by_cases hv : v = 0
        · rw [if_pos hv]
          by_cases h1 : t' = t
          · rw [if_pos h1, if_pos hv, h1]
            exact lookupTok_eq_zero_of_not_mem rest t (he ▸ h.1)
          · rw [if_neg h1]
            show lookupTok rest t' = (if e.1 = t' then e.2 else lookupTok rest t')
            rw [if_neg (fun hc => h1 (hc.symm.trans he))]
        · rw [if_neg hv]
          by_cases h1 : t' = t
          · show (if t = t' then v else lookupTok rest t') = _
            rw [if_pos h1.symm, if_pos h1, if_neg hv]
          · show (if t = t' then v else lookupTok rest t') = _
            rw [if_neg (fun hc => h1 hc.symm), if_neg h1]
            show lookupTok rest t' = (if e.1 = t' then e.2 else lookupTok rest t')
            rw [if_neg (fun hc => h1 (hc.symm.trans he))]
      · rw [if_neg he]
        show (if e.1 = t' then e.2 else lookupTok (setTok rest t v) t') = _
        by_cases h2 : e.1 = t'
        · rw [if_pos h2]
          have h1 : ¬ t' = t := fun hc => he (h2.trans hc)
          rw [if_neg h1]
          show _ = (if e.1 = t' then e.2 else lookupTok rest t')
          rw [if_pos h2]
        · rw [if_neg h2, ih hrest]
          by_cases h1 : t' = t
          · rw [if_pos h1, if_pos h1]
          · rw [if_neg h1, if_neg h1]
            show _ = (if e.1 = t' then e.2 else lookupTok rest t')
            rw [if_neg h2]

theorem lookupTok_addTok (u : List (TokenId × Int)) (t : TokenId) (d : Int)
    (t' : TokenId) (h : UKeys u) :
    lookupTok (addTok u t d) t' =
      lookupTok u t' + if t' = t then d else 0 := by
  unfold addTok
  rw [lookupTok_setTok u t _ t' h]
  by_cases h1 : t' = t
  · rw [if_pos h1, if_pos h1, h1]
    by_cases h2 : lookupTok u t + d = 0
    · rw [if_pos h2]; omega
    · rw [if_neg h2]
  · rw [if_neg h1, if_neg h1]
    omega

theorem UKeys_addTok (u : List (TokenId × Int)) (t : TokenId) (d : Int)
    (h : UKeys u) : UKeys (addTok u t d) := UKeys_setTok u t _ h

theorem NZ_addTok (u : List (TokenId × Int)) (t : TokenId) (d : Int)
    (h : NZ u) : NZ (addTok u t d) := NZ_setTok u t _ h

theorem deltaSum_cons (td : TokenId × Int) (rest : TokenDeltas) (t : TokenId) :
    deltaSum (td :: rest) t = (if td.1 = t then td.2 else 0) + deltaSum rest t := by
  unfold deltaSum
  rw [List.map_cons, List.sum_cons]

theorem deltaAdjSum_cons (fee : Pips) (td : TokenId × Int) (rest : TokenDeltas)
    (t : TokenId) :
    deltaAdjSum fee (td :: rest) t =
      (if td.1 = t then feeAdjusted td.2 fee else 0) + deltaAdjSum fee rest t := by
  unfold deltaAdjSum
  rw [List.map_cons, List.sum_cons]

theorem adjSum_cons (fee : Pips) (i : AccountId × TokenDeltas)
    (rest : List (AccountId × TokenDeltas)) (t : TokenId) :
    adjSum fee (i :: rest) t = deltaAdjSum fee i.2 t + adjSum fee rest t := by
  unfold adjSum
  rw [List.map_cons, List.sum_cons]

theorem acctSum_cons (i : AccountId × TokenDeltas)
    (rest : List (AccountId × TokenDeltas)) (a : AccountId) (t : TokenId) :
    acctSum (i :: rest) a t =
      (if i.1 = a then deltaSum i.2 t else 0) + acctSum rest a t := by
  unfold acctSum
  rw [List.map_cons, List.sum_cons]

theorem ite_cond_comm (a b : TokenId) (x : Int) :
    (if a = b then x else 0) = (if b = a then x else 0) := by
  by_cases h : a = b
  · rw [if_pos h, if_pos h.symm]
  · rw [if_neg h, if_neg (fun hc => h hc.symm)]

/-- Staging one intent's balance changes adds exactly its per-token net
delta to the signer's balances. -/
theorem applyIntentDeltas_some (a : AccountId) (ds : TokenDeltas) :
    ∀ (bal bal' : Balances), applyIntentDeltas bal a ds = some bal' →
      ∀ a' t, (bal' a' t : Int) =
        bal a' t + if a' = a then deltaSum ds t else 0 := by
  induction ds with
  | nil =>
      intro bal bal' h a' t
      injection h with h
      subst h
      simp [deltaSum]
  | cons td rest ih =>
      intro bal bal' h a' t
      obtain ⟨t₀, d⟩ := td
      unfold applyIntentDeltas at h
      by_cases hv : ((bal a t₀ : Int) + d) < 0
      · rw [if_pos hv] at h
        cases h
      · rw [if_neg hv] at h
        have hnn : (0 : Int) ≤ (bal a t₀ : Int) + d := not_lt.mp hv
        have hb := ih _ _ h a' t
        rw [deltaSum_cons]
        by_cases ha : a' = a
        · subst ha
          by_cases ht : t = t₀
          · subst ht
            rw [if_pos ⟨rfl, rfl⟩] at hb
            rw [hb, Int.toNat_of_nonneg hnn, if_pos rfl, if_pos rfl, if_pos rfl]
            ring
          · rw [if_neg (fun hc => ht hc.2)] at hb
            rw [hb, if_pos rfl, if_pos rfl,
              if_neg (fun hc : t₀ = t => ht hc.symm)]
            ring
        · rw [if_neg (fun hc => ha hc.1)] at hb
          rw [if_neg ha] at hb
          rw [hb, if_neg ha]

/-- Staging one intent's unmatched contribution adds its fee-adjusted
per-token deltas to the running total. -/
theorem unmatched_stage (fee : Pips) (ds : TokenDeltas) :
    ∀ u, UKeys u → NZ u →
      UKeys (ds.foldl (fun u td => addTok u td.1 (feeAdjusted td.2 fee)) u) ∧
      NZ (ds.foldl (fun u td => addTok u td.1 (feeAdjusted td.2 fee)) u) ∧
      ∀ t, lookupTok
          (ds.foldl (fun u td => addTok u td.1 (feeAdjusted td.2 fee)) u) t =
        lookupTok u t + deltaAdjSum fee ds t := by
  induction ds with
  | nil =>
      intro u hU hNZ
      refine ⟨hU, hNZ, fun t => ?_⟩
      simp [deltaAdjSum]
  | cons td rest ih =>
      intro u hU hNZ
      obtain ⟨hU', hNZ', hL⟩ :=
        ih (addTok u td.1 (feeAdjusted td.2 fee)) (UKeys_addTok u _ _ hU)
          (NZ_addTok u _ _ hNZ)
      refine ⟨hU', hNZ', fun t => ?_⟩
      show lookupTok (rest.foldl _ (addTok u td.1 (feeAdjusted td.2 fee))) t = _
      rw [hL t, lookupTok_addTok u _ _ t hU, deltaAdjSum_cons,
        ite_cond_comm t td.1]
      ring

theorem collectIntent_none (fee : Pips) (st : CollectState)
    (i : AccountId × TokenDeltas)
    (h : applyIntentDeltas st.bal i.1 i.2 = none) :
    collectIntent fee st i = { st with failed := st.failed ++ [i] } := by
  unfold collectIntent
  rw [h]

theorem collectIntent_some (fee : Pips) (st : CollectState)
    (i : AccountId × TokenDeltas) (bal' : Balances)
    (h : applyIntentDeltas st.bal i.1 i.2 = some bal') :
    collectIntent fee st i =
      ⟨bal',
        i.2.foldl (fun u td => addTok u td.1 (feeAdjusted td.2 fee))
          st.unmatched, st.failed⟩ := by
  unfold collectIntent
  rw [h]

/-- The `Collecting` fold: the unmatched invariants hold throughout, failures
only accumulate, and when no intent failed the final unmatched totals and
balances are exactly the fee-adjusted sums and per-account net deltas. -/
theorem collectFold_invariant (fee : Pips) (batch : List (AccountId × TokenDeltas)) :
    ∀ st : CollectState, UKeys st.unmatched → NZ st.unmatched →
      UKeys (batch.foldl (collectIntent fee) st).unmatched ∧
      NZ (batch.foldl (collectIntent fee) st).unmatched ∧
      (∃ l, (batch.foldl (collectIntent fee) st).failed = st.failed ++ l) ∧
      ((batch.foldl (collectIntent fee) st).failed = st.failed →
        (∀ t, lookupTok (batch.foldl (collectIntent fee) st).unmatched t =
          lookupTok st.unmatched t + adjSum fee batch t) ∧
        (∀ a t, ((batch.foldl (collectIntent fee) st).bal a t : Int) =
          st.bal a t + acctSum batch a t)) := by
  induction batch with
  | nil =>
      intro st hU hNZ
      refine ⟨hU, hNZ, ⟨[], by simp⟩, fun _ => ⟨fun t => ?_, fun a t => ?_⟩⟩
      · simp [adjSum]
      · simp [acctSum]
  | cons i rest ih =>
      intro st hU hNZ
      rw [List.foldl_cons]
      cases happ : applyIntentDeltas st.bal i.1 i.2 with
      | none =>
          rw [collectIntent_none fee st i happ]
          obtain ⟨hU', hNZ', ⟨l, hl⟩, -⟩ :=
            ih { st with failed := st.failed ++ [i] } hU hNZ
          refine ⟨hU', hNZ', ⟨[i] ++ l, by rw [hl]; simp⟩, fun hf => ?_⟩
          exfalso
          rw [hl] at hf
          have hlen : st.failed.length + 1 + l.length = st.failed.length := by
            simpa [List.length_append] using congrArg List.length hf
          omega
      | some bal' =>
          rw [collectIntent_some fee st i bal' happ]
          obtain ⟨hUs, hNZs, hLs⟩ := unmatched_stage fee i.2 st.unmatched hU hNZ
          obtain ⟨hU', hNZ', ⟨l, hl⟩, hcond⟩ :=
            ih ⟨bal',
              i.2.foldl (fun u td => addTok u td.1 (feeAdjusted td.2 fee))
                st.unmatched, st.failed⟩ hUs hNZs
          refine ⟨hU', hNZ', ⟨l, hl⟩, fun hf => ?_⟩
          obtain ⟨hlk, hbal⟩ := hcond hf
          constructor
          · intro t
            rw [hlk t]
            dsimp only
            rw [hLs t, adjSum_cons]
            ring
          · intro a t
            rw [hbal a t]
            dsimp only
            rw [applyIntentDeltas_some i.1 i.2 st.bal bal' happ a t,
              acctSum_cons, ite_cond_comm a i.1]
            ring

theorem unmatched_nil_of_lookup_zero (u : List (TokenId × Int)) (hNZ : NZ u)
    (h : ∀ t, lookupTok u t = 0) : u = [] := by
  cases u with
  | nil => rfl
  | cons e rest =>
      exfalso
      have he := h e.1
      have : lookupTok (e :: rest) e.1 = e.2 := by
        show (if e.1 = e.1 then e.2 else lookupTok rest e.1) = e.2
        rw [if_pos rfl]
      rw [this] at he
      exact hNZ e (by simp) he

/-- C2: a batch whose raw deltas sum to zero per token, executed at
`Pips::ZERO` fee with no intent failing on balance, commits with an empty
unmatched-deltas report and final balances equal to the initial balances
plus each account's requested net deltas. -/
theorem C2_zero_sum_batch_commits (bal : Balances)
    (batch : List (AccountId × TokenDeltas))
    (hzero : ∀ t, rawSum batch t = 0)
    (hsuff : (collect Pips.ZERO bal batch).failed = []) :
    (apply_token_diff_batch Pips.ZERO bal batch).1.committed = true ∧
    (apply_token_diff_batch Pips.ZERO bal batch).1.unmatched = [] ∧
    (∀ a t, ((apply_token_diff_batch Pips.ZERO bal batch).2 a t : Int) =
      (bal a t : Int) + acctSum batch a t) := by
  obtain ⟨hU, hNZ, -, hcond⟩ :=
    collectFold_invariant Pips.ZERO batch ⟨bal, [], []⟩
      (by simp [UKeys]) (by intro e he; simp at he)
  obtain ⟨hlk, hbal⟩ := hcond hsuff
  have hnil : (collect Pips.ZERO bal batch).unmatched = [] := by
    apply unmatched_nil_of_lookup_zero _ hNZ
    intro t
    rw [hlk t]
    show lookupTok [] t + adjSum Pips.ZERO batch t = 0
    rw [adjSum_zero, hzero t]
    rfl
  have happly : apply_token_diff_batch Pips.ZERO bal batch =
      (⟨true, []⟩, (collect Pips.ZERO bal batch).bal) := by
    unfold apply_token_diff_batch
    rw [if_pos hnil]
  rw [happly]
  exact ⟨rfl, rfl, fun a t => hbal a t⟩

/-- Witness for C2: the two-user swap of the spec's scenario commits and
moves exactly the requested amounts. -/
theorem C2_zero_sum_batch_commits_witness :
    ((collect Pips.ZERO
        (fun a t => if a = 0 ∧ t = 1 then 100 else if a = 1 ∧ t = 2 then 200 else 0)
        [(0, [(1, -100), (2, 200)]), (1, [(1, 100), (2, -200)])]).failed = []) ∧
    (apply_token_diff_batch Pips.ZERO
        (fun a t => if a = 0 ∧ t = 1 then 100 else if a = 1 ∧ t = 2 then 200 else 0)
        [(0, [(1, -100), (2, 200)]), (1, [(1, 100), (2, -200)])]).1.committed = true ∧
    ((apply_token_diff_batch Pips.ZERO
        (fun a t => if a = 0 ∧ t = 1 then 100 else if a = 1 ∧ t = 2 then 200 else 0)
        [(0, [(1, -100), (2, 200)]), (1, [(1, 100), (2, -200)])]).2 0 2 : Int) =
      (0 : Int) + acctSum [(0, [(1, -100), (2, 200)]), (1, [(1, 100), (2, -200)])] 0 2 := by
  have h := C2_zero_sum_batch_commits
    (fun a t => if a = 0 ∧ t = 1 then 100 else if a = 1 ∧ t = 2 then 200 else 0)
    [(0, [(1, -100), (2, 200)]), (1, [(1, 100), (2, -200)])]
    (by
      intro t
      unfold rawSum deltaSum
      simp only [List.map_cons, List.map_nil, List.sum_cons, List.sum_nil]
      split_ifs <;> omega)
    (by decide)
  exact ⟨by decide, h.1, h.2.2 0 2⟩

/-- C3: a batch with a non-zero accumulated fee-adjusted residual for some
token is rejected: the staged balances are discarded (the persisted
balances are returned unchanged), and the report carries exactly the
accumulated residual, every entry of which is non-zero. -/
theorem C3_unbalanced_batch_rejected (fee : Pips) (bal : Balances)
    (batch : List (AccountId × TokenDeltas))
    (hsuff : (collect fee bal batch).failed = [])
    (hne : ∃ t, adjSum fee batch t ≠ 0) :
    (apply_token_diff_batch fee bal batch).1.committed = false ∧
    (apply_token_diff_batch fee bal batch).2 = bal ∧
    (∀ t, lookupTok (apply_token_diff_batch fee bal batch).1.unmatched t =
      adjSum fee batch t) ∧
    (∀ e ∈ (apply_token_diff_batch fee bal batch).1.unmatched, e.2 ≠ 0) := by
  obtain ⟨hU, hNZ, -, hcond⟩ :=
    collectFold_invariant fee batch ⟨bal, [], []⟩
      (by simp [UKeys]) (by intro e he; simp at he)
  obtain ⟨hlk, -⟩ := hcond hsuff
  have hlk' : ∀ t, lookupTok (collect fee bal batch).unmatched t =
      adjSum fee batch t := by
    intro t
    show lookupTok (batch.foldl (collectIntent fee) ⟨bal, [], []⟩).unmatched t =
      adjSum fee batch t
    rw [hlk t]
    show (0 : Int) + adjSum fee batch t = adjSum fee batch t
    omega
  obtain ⟨t₀, ht₀⟩ := hne
  have hnonnil : ¬ (collect fee bal batch).unmatched = [] := by
    intro hempty
    have h := hlk' t₀
    rw [hempty] at h
    exact ht₀ h.symm
  have happly : apply_token_diff_batch fee bal batch =
      (⟨false, (collect fee bal batch).unmatched⟩, bal) := by
    unfold apply_token_diff_batch
    rw [if_neg hnonnil]
  rw [happly]
  exact ⟨rfl, rfl, hlk', hNZ⟩

/-- Witness for C3: the spec's invariant-violation test — a 1-unit residual
on the second token rejects the batch and leaves balances untouched. -/
theorem C3_unbalanced_batch_rejected_witness :
    ((collect Pips.ZERO
        (fun a t => if a = 0 ∧ t = 1 then 1000 else if a = 1 ∧ t = 2 then 2000 else 0)
        [(0, [(1, -1000), (2, 2000)]), (0, [(1, 1000), (2, -1999)])]).failed = []) ∧
    (adjSum Pips.ZERO
        [(0, [(1, -1000), (2, 2000)]), (0, [(1, 1000), (2, -1999)])] 2 = 1) ∧
    (apply_token_diff_batch Pips.ZERO
        (fun a t => if a = 0 ∧ t = 1 then 1000 else if a = 1 ∧ t = 2 then 2000 else 0)
        [(0, [(1, -1000), (2, 2000)]), (0, [(1, 1000), (2, -1999)])]).1.committed = false ∧
    (apply_token_diff_batch Pips.ZERO
        (fun a t => if a = 0 ∧ t = 1 then 1000 else if a = 1 ∧ t = 2 then 2000 else 0)
        [(0, [(1, -1000), (2, 2000)]), (0, [(1, 1000), (2, -1999)])]).2 =
      (fun a t => if a = 0 ∧ t = 1 then 1000 else if a = 1 ∧ t = 2 then 2000 else 0) ∧
    lookupTok (apply_token_diff_batch Pips.ZERO
        (fun a t => if a = 0 ∧ t = 1 then 1000 else if a = 1 ∧ t = 2 then 2000 else 0)
        [(0, [(1, -1000), (2, 2000)]), (0, [(1, 1000), (2, -1999)])]).1.unmatched 2 =
      adjSum Pips.ZERO [(0, [(1, -1000), (2, 2000)]), (0, [(1, 1000), (2, -1999)])] 2 := by
  have h := C3_unbalanced_batch_rejected Pips.ZERO
    (fun a t => if a = 0 ∧ t = 1 then 1000 else if a = 1 ∧ t = 2 then 2000 else 0)
    [(0, [(1, -1000), (2, 2000)]), (0, [(1, 1000), (2, -1999)])]
    (by decide) ⟨2, by decide⟩
  exact ⟨by decide, by decide, h.1, h.2.1, h.2.2.1 2⟩

end Intents
